import Mathlib

/-
Verification of the graph merge and load pipeline of the knowledge-graph
generator (sources: 1_prepare_data.py and 2_ingest_data.py).

The Python data model is embedded shallowly:
* property dictionaries (`Dict[str, PropertyValue]`) become ordered association
  lists, matching Python's insertion-ordered dicts;
* `Optional[...]` becomes `Option`;
* Python's `str()` on an optional property dict is modelled character by
  character (`pyStrChars`): `None` prints as `None`, dicts print as
  `{'key': value, ...}` with `repr`-style quoting of strings.  String repr is
  modelled with single quotes and backslash escapes; CPython additionally
  switches to double quotes when a string contains a single quote but no double
  quote, a presentation detail that does not change which dicts print equal
  (both versions are injective on the values considered here), so equality of
  dedup keys — the only way the program uses these strings — is preserved.
  The `float` alternative of the source's `PropertyValue` union is not
  modelled: IEEE floating point is outside the shallow embedding, and no
  claim involves float-valued properties.
-/

namespace GraphRAG

/-- Property values: the scalar types of `PropertyValue = Union[str, int, float, bool, None]`
(floats omitted, see the header comment). -/
inductive PropertyValue where
  | str (s : String)
  | int (n : Int)
  | bool (b : Bool)
  | none
deriving DecidableEq, Repr

/-- An insertion-ordered property dictionary (`Dict[str, PropertyValue]`). -/
abbrev Props := List (String × PropertyValue)

/-- `class Node(BaseModel)`: id, label, optional properties. -/
structure Node where
  id : String
  label : String
  properties : Option Props
deriving DecidableEq, Repr

/-- `class Relationship(BaseModel)`: type, endpoint ids, optional properties. -/
structure Relationship where
  type : String
  start_node_id : String
  end_node_id : String
  properties : Option Props
deriving DecidableEq, Repr

/-- `class GraphResponse(BaseModel)`: node list and relationship list. -/
structure GraphResponse where
  nodes : List Node
  relationships : List Relationship
deriving DecidableEq, Repr

/-! ### A model of Python `str()` on `Optional[Dict[str, PropertyValue]]` -/

/-- Characters escaped inside a repr'd string, with their escape codes. -/
def escCode? (c : Char) : Option Char :=
  if c = '\\' then some '\\'
  else if c = '\'' then some '\''
  else if c = '\n' then some 'n'
  else if c = '\r' then some 'r'
  else if c = '\t' then some 't'
  else Option.none

/-- Escape one character of a repr'd string. -/
def escChar (c : Char) : List Char :=
  match escCode? c with
  | some d => ['\\', d]
  | Option.none => [c]

/-- Escape every character of a repr'd string. -/
def escList : List Char → List Char
  | [] => []
  | c :: cs => escChar c ++ escList cs

/-- `repr` of a Python string: quoted and escaped. -/
def pyReprString (s : String) : List Char :=
  '\'' :: (escList s.data ++ ['\''])

/-- Decimal digits of a natural number (`str(n)` for `n ≥ 0`). -/
def pyReprNat (n : Nat) : List Char :=
  if n = 0 then ['0'] else ((Nat.digits 10 n).map Nat.digitChar).reverse

/-- `str` of a Python int: optional minus sign followed by decimal digits. -/
def pyReprInt : Int → List Char
  | Int.ofNat n => pyReprNat n
  | Int.negSucc m => '-' :: pyReprNat (m + 1)

/-- `repr` of one property value as it appears inside a dict's `str()`. -/
def pyReprValue : PropertyValue → List Char
  | PropertyValue.str s => pyReprString s
  | PropertyValue.int n => pyReprInt n
  | PropertyValue.bool true => ['T', 'r', 'u', 'e']
  | PropertyValue.bool false => ['F', 'a', 'l', 's', 'e']
  | PropertyValue.none => ['N', 'o', 'n', 'e']

/-- One `key: value` entry of a dict's `str()`. -/
def pyReprEntry (kv : String × PropertyValue) : List Char :=
  pyReprString kv.1 ++ (':' :: ' ' :: pyReprValue kv.2)

/-- The remaining entries of a dict's `str()`, each preceded by a comma. -/
def pyReprMore : Props → List Char
  | [] => []
  | kv :: rest => ',' :: ' ' :: (pyReprEntry kv ++ pyReprMore rest)

/-- All entries of a dict's `str()`, separated by commas. -/
def pyReprEntries : Props → List Char
  | [] => []
  | kv :: rest => pyReprEntry kv ++ pyReprMore rest

/-- `str(properties)` for an `Optional[Dict[str, PropertyValue]]`, as characters. -/
def pyStrChars : Option Props → List Char
  | Option.none => ['N', 'o', 'n', 'e']
  | some ps => '{' :: (pyReprEntries ps ++ ['}'])

/-- `str(node.properties)` as a string. -/
def pyStr (p : Option Props) : String := String.mk (pyStrChars p)

/-! ### combine_chunk_graphs (1_prepare_data.py, lines 136-167) -/

/-- The dedup key of a node: `(node.id, node.label, str(node.properties))`. -/
def nodeKey (n : Node) : String × String × String :=
  (n.id, n.label, pyStr n.properties)

/-- Step 1 of `combine_chunk_graphs`: collect all nodes from all chunk graphs,
in input order. -/
def allNodes : List GraphResponse → List Node
  | [] => []
  | g :: gs => g.nodes ++ allNodes gs

/-- Step 2 of `combine_chunk_graphs`: collect all relationships from all chunk
graphs, in input order. -/
def allRelationships : List GraphResponse → List Relationship
  | [] => []
  | g :: gs => g.relationships ++ allRelationships gs

/-- Step 3 of `combine_chunk_graphs`: keep the first node for each dedup key,
dropping later nodes whose key was already seen. -/
def dedupNodes : List Node → List (String × String × String) → List Node
  | [], _ => []
  | n :: rest, seen =>
    if nodeKey n ∈ seen then dedupNodes rest seen
    else n :: dedupNodes rest (nodeKey n :: seen)

/-- `combine_chunk_graphs`: merge the chunk graphs, deduplicating nodes and
concatenating relationships. -/
def combine_chunk_graphs (chunk_graphs : List GraphResponse) : GraphResponse :=
  { nodes := dedupNodes (allNodes chunk_graphs) []
    relationships := allRelationships chunk_graphs }

lemma pyStr_sample :
    pyStr (some [("name", PropertyValue.str "Tanjiro Kamado")]) =
      "\x7b'name': 'Tanjiro Kamado'\x7d" := by decide

lemma pyStr_none_sample : pyStr Option.none = "None" := by decide

lemma pyStr_empty_sample : pyStr (some []) = "\x7b\x7d" := by decide

/-! ### Injectivity of the `str()` model

Python's `repr` is designed so that distinct values print distinctly; the
dedup key of `combine_chunk_graphs` therefore separates exactly the nodes
whose `(id, label, properties)` differ.  The lemmas below establish this for
the model: `pyStr` is injective on `Option Props`. -/

lemma escCode?_eq_none {c : Char} (h : escCode? c = Option.none) :
    c ≠ '\\' ∧ c ≠ '\'' := by
  unfold escCode? at h
  split_ifs at h
  exact ⟨by assumption, by assumption⟩

lemma escCode?_inj {c₁ c₂ d : Char} (h₁ : escCode? c₁ = some d)
    (h₂ : escCode? c₂ = some d) : c₁ = c₂ := by
  unfold escCode? at h₁ h₂
  split_ifs at h₁ h₂ <;> subst_vars <;>
    first
      | rfl
      | exact absurd ((Option.some.inj h₁).trans (Option.some.inj h₂).symm)
          (by decide)

lemma escList_cons_head (c : Char) (cs X : List Char) :
    ∃ a Y, escList (c :: cs) ++ X = a :: Y ∧ a ≠ '\'' := by
  cases hc : escCode? c with
  | some d =>
    exact ⟨'\\', d :: (escList cs ++ X), by simp [escList, escChar, hc], by decide⟩
  | none =>
    exact ⟨c, escList cs ++ X, by simp [escList, escChar, hc],
      (escCode?_eq_none hc).2⟩

lemma escList_framed : ∀ (s₁ s₂ t₁ t₂ : List Char),
    escList s₁ ++ '\'' :: t₁ = escList s₂ ++ '\'' :: t₂ → s₁ = s₂ ∧ t₁ = t₂ := by
  intro s₁
  induction s₁ with
  | nil =>
    intro s₂ t₁ t₂ h
    cases s₂ with
    | nil =>
      simp only [escList, List.nil_append, List.cons.injEq] at h
      exact ⟨rfl, h.2⟩
    | cons c cs =>
      exfalso
      obtain ⟨a, Y, hE, hne⟩ := escList_cons_head c cs ('\'' :: t₂)
      rw [hE] at h
      simp only [escList, List.nil_append, List.cons.injEq] at h
      exact hne h.1.symm
  | cons c₁ cs₁ ih =>
    intro s₂ t₁ t₂ h
    cases s₂ with
    | nil =>
      exfalso
      obtain ⟨a, Y, hE, hne⟩ := escList_cons_head c₁ cs₁ ('\'' :: t₁)
      rw [hE] at h
      simp only [escList, List.nil_append, List.cons.injEq] at h
      exact hne h.1
    | cons c₂ cs₂ =>
      simp only [escList, List.append_assoc] at h
      cases h₁ : escCode? c₁ with
      | some d₁ =>
        cases h₂ : escCode? c₂ with
        | some d₂ =>
          simp only [escChar, h₁, h₂, List.cons_append, List.nil_append,
            List.cons.injEq, true_and] at h
          obtain ⟨hd, hrest⟩ := h
          obtain rfl : c₁ = c₂ := escCode?_inj h₁ (hd ▸ h₂)
          obtain ⟨hs, ht⟩ := ih cs₂ t₁ t₂ hrest
          exact ⟨by rw [hs], ht⟩
        | none =>
          exfalso
          simp only [escChar, h₁, h₂, List.cons_append, List.nil_append,
            List.cons.injEq] at h
          exact (escCode?_eq_none h₂).1 h.1.symm
      | none =>
        cases h₂ : escCode? c₂ with
        | some d₂ =>
          exfalso
          simp only [escChar, h₁, h₂, List.cons_append, List.nil_append,
            List.cons.injEq] at h
          exact (escCode?_eq_none h₁).1 h.1
        | none =>
          simp only [escChar, h₁, h₂, List.cons_append, List.nil_append,
            List.cons.injEq] at h
          obtain ⟨rfl, hrest⟩ := h
          obtain ⟨hs, ht⟩ := ih cs₂ t₁ t₂ hrest
          exact ⟨by rw [hs], ht⟩

lemma digitChar_inj10 : ∀ a, a < 10 → ∀ b, b < 10 →
    Nat.digitChar a = Nat.digitChar b → a = b := by decide

lemma digitChar_isDigit : ∀ d, d < 10 → (Nat.digitChar d).isDigit = true := by decide

lemma mapDigitChar_inj : ∀ (l₁ l₂ : List Nat), (∀ d ∈ l₁, d < 10) →
    (∀ d ∈ l₂, d < 10) → l₁.map Nat.digitChar = l₂.map Nat.digitChar → l₁ = l₂ := by
  intro l₁
  induction l₁ with
  | nil =>
    intro l₂ _ _ h
    cases l₂ with
    | nil => rfl
    | cons b l₂' => simp at h
  | cons a l₁' ih =>
    intro l₂ h₁ h₂ h
    cases l₂ with
    | nil => simp at h
    | cons b l₂' =>
      simp only [List.map_cons, List.cons.injEq] at h
      have hab : a = b :=
        digitChar_inj10 a (h₁ a (by simp)) b (h₂ b (by simp)) h.1
      rw [hab, ih l₂' (fun d hd => h₁ d (by simp [hd]))
        (fun d hd => h₂ d (by simp [hd])) h.2]

lemma pyReprNat_chars (n : Nat) : ∀ c ∈ pyReprNat n, c.isDigit = true := by
  intro c hc
  unfold pyReprNat at hc
  split at hc
  · simp only [List.mem_singleton] at hc
    rw [hc]; decide
  · simp only [List.mem_reverse, List.mem_map] at hc
    obtain ⟨d, hd, rfl⟩ := hc
    exact digitChar_isDigit d (Nat.digits_lt_base (by norm_num) hd)

lemma pyReprNat_ne_nil (n : Nat) : pyReprNat n ≠ [] := by
  unfold pyReprNat
  split
  · simp
  · intro h
    rw [List.reverse_eq_nil_iff, List.map_eq_nil_iff] at h
    exact (Nat.digits_ne_nil_iff_ne_zero.mpr (by assumption)) h

lemma pyReprNat_inj : ∀ {m n : Nat}, pyReprNat m = pyReprNat n → m = n := by
  have key : ∀ (n : Nat), n ≠ 0 →
      ['0'] = ((Nat.digits 10 n).map Nat.digitChar).reverse → False := by
    intro n hn h
    have hlen := congrArg List.length h
    simp only [List.length_singleton, List.length_reverse, List.length_map] at hlen
    obtain ⟨d, hd⟩ := List.length_eq_one.mp hlen.symm
    rw [hd] at h
    simp only [List.map_cons, List.map_nil, List.reverse_cons, List.reverse_nil,
      List.nil_append, List.cons.injEq, and_true] at h
    have hdlt : d < 10 := Nat.digits_lt_base (by norm_num) (by rw [hd]; simp)
    have hd0 : d = 0 := digitChar_inj10 d hdlt 0 (by norm_num) h.symm
    have hofd := Nat.ofDigits_digits 10 n
    rw [hd, hd0] at hofd
    simp [Nat.ofDigits] at hofd
    exact hn hofd.symm
  intro m n h
  unfold pyReprNat at h
  split_ifs at h with hm hn
  · omega
  · exact absurd (key n hn h) (by simp)
  · exact absurd (key m hm h.symm) (by simp)
  · have h' := List.reverse_injective h
    have hd := mapDigitChar_inj _ _
      (fun d hd => Nat.digits_lt_base (by norm_num) hd)
      (fun d hd => Nat.digits_lt_base (by norm_num) hd) h'
    calc m = Nat.ofDigits 10 (Nat.digits 10 m) := (Nat.ofDigits_digits 10 m).symm
      _ = Nat.ofDigits 10 (Nat.digits 10 n) := by rw [hd]
      _ = n := Nat.ofDigits_digits 10 n

lemma pyReprInt_chars (n : Int) : ∀ c ∈ pyReprInt n,
    (c.isDigit || c == '-') = true := by
  intro c hc
  cases n with
  | ofNat m => simp [pyReprNat_chars m c hc]
  | negSucc m =>
    simp only [pyReprInt, List.mem_cons] at hc
    rcases hc with rfl | hc
    · decide
    · simp [pyReprNat_chars (m + 1) c hc]

lemma pyReprInt_ne_nil (n : Int) : pyReprInt n ≠ [] := by
  cases n with
  | ofNat m => exact pyReprNat_ne_nil m
  | negSucc m => simp [pyReprInt]

lemma pyReprInt_head (n : Int) : ∃ c cs, pyReprInt n = c :: cs ∧
    (c.isDigit || c == '-') = true := by
  obtain ⟨c, cs, hc⟩ := List.exists_cons_of_ne_nil (pyReprInt_ne_nil n)
  exact ⟨c, cs, hc, pyReprInt_chars n c (by rw [hc]; simp)⟩

lemma sepHead_char {r : List Char}
    (hr : r.head? = some ',' ∨ r.head? = some '}') :
    ∀ c, r.head? = some c → c = ',' ∨ c = '}' := by
  intro c hc
  rcases hr with h | h
  · left; exact Option.some.inj ((hc.symm).trans h)
  · right; exact Option.some.inj ((hc.symm).trans h)

lemma append_eq_of_classified {p : Char → Bool} :
    ∀ (xs₁ xs₂ r₁ r₂ : List Char), (∀ c ∈ xs₁, p c = true) →
      (∀ c ∈ xs₂, p c = true) → (∀ c, r₁.head? = some c → p c = false) →
      (∀ c, r₂.head? = some c → p c = false) →
      xs₁ ++ r₁ = xs₂ ++ r₂ → xs₁ = xs₂ ∧ r₁ = r₂ := by
  intro xs₁
  induction xs₁ with
  | nil =>
    intro xs₂ r₁ r₂ _ h₂ hr₁ _ h
    cases xs₂ with
    | nil => exact ⟨rfl, h⟩
    | cons b bs =>
      exfalso
      simp only [List.nil_append, List.cons_append] at h
      have hb : p b = true := h₂ b (by simp)
      have hb' : p b = false := hr₁ b (by rw [h]; rfl)
      rw [hb'] at hb
      exact Bool.noConfusion hb
  | cons a as ih =>
    intro xs₂ r₁ r₂ h₁ h₂ hr₁ hr₂ h
    cases xs₂ with
    | nil =>
      exfalso
      simp only [List.nil_append, List.cons_append] at h
      have ha : p a = true := h₁ a (by simp)
      have ha' : p a = false := hr₂ a (by rw [← h]; rfl)
      rw [ha'] at ha
      exact Bool.noConfusion ha
    | cons b bs =>
      simp only [List.cons_append, List.cons.injEq] at h
      obtain ⟨rfl, h'⟩ := h
      obtain ⟨hx, hr⟩ := ih bs r₁ r₂ (fun c hc => h₁ c (by simp [hc]))
        (fun c hc => h₂ c (by simp [hc])) hr₁ hr₂ h'
      exact ⟨by rw [hx], hr⟩

lemma pyReprValue_framed : ∀ (v₁ v₂ : PropertyValue) (r₁ r₂ : List Char),
    (r₁.head? = some ',' ∨ r₁.head? = some '}') →
    (r₂.head? = some ',' ∨ r₂.head? = some '}') →
    pyReprValue v₁ ++ r₁ = pyReprValue v₂ ++ r₂ → v₁ = v₂ ∧ r₁ = r₂ := by
  have sep_not_digit : ∀ {r : List Char},
      (r.head? = some ',' ∨ r.head? = some '}') →
      ∀ c, r.head? = some c → c.isDigit = false := by
    intro r hr c hc
    rcases sepHead_char hr c hc with rfl | rfl <;> decide
  have int_vs_quote : ∀ (n : Int) (X Y : List Char),
      '\'' :: X = pyReprInt n ++ Y → False := by
    intro n X Y h
    obtain ⟨c, cs, hc, hclass⟩ := pyReprInt_head n
    rw [hc] at h
    simp only [List.cons_append, List.cons.injEq] at h
    rw [← h.1] at hclass
    exact absurd hclass (by decide)
  have int_vs_letter : ∀ (n : Int) (a : Char), a.isDigit = false → a ≠ '-' →
      ∀ (X Y : List Char), a :: X = pyReprInt n ++ Y → False := by
    intro n a ha ha' X Y h
    obtain ⟨c, cs, hc, hclass⟩ := pyReprInt_head n
    rw [hc] at h
    simp only [List.cons_append, List.cons.injEq] at h
    rw [← h.1] at hclass
    simp only [Bool.or_eq_true, beq_iff_eq] at hclass
    rcases hclass with hclass | hclass
    · rw [ha] at hclass; exact Bool.noConfusion hclass
    · exact ha' hclass
  intro v₁ v₂ r₁ r₂ hr₁ hr₂ h
  cases v₁ with
  | str s₁ =>
    cases v₂ with
    | str s₂ =>
      simp only [pyReprValue, pyReprString, List.cons_append, List.append_assoc,
        List.singleton_append, List.cons.injEq, true_and] at h
      obtain ⟨hs, ht⟩ := escList_framed _ _ _ _ h
      have : s₁ = s₂ := by
        cases s₁; cases s₂; exact congrArg String.mk hs
      exact ⟨by rw [this], ht⟩
    | int n₂ =>
      exact absurd h (by
        simp only [pyReprValue, pyReprString, List.cons_append]
        intro h
        exact int_vs_quote n₂ _ _ h)
    | bool b₂ =>
      exfalso
      cases b₂ <;>
        simp only [pyReprValue, pyReprString, List.cons_append,
          List.cons.injEq] at h <;>
        exact absurd h.1 (by decide)
    | none =>
      exfalso
      simp only [pyReprValue, pyReprString, List.cons_append,
        List.cons.injEq] at h
      exact absurd h.1 (by decide)
  | int n₁ =>
    cases v₂ with
    | str s₂ =>
      exact absurd h (by
        simp only [pyReprValue, pyReprString, List.cons_append]
        intro h
        exact int_vs_quote n₁ _ _ h.symm)
    | int n₂ =>
      cases n₁ with
      | ofNat m₁ =>
        cases n₂ with
        | ofNat m₂ =>
          simp only [pyReprValue, pyReprInt] at h
          obtain ⟨hx, hr⟩ := append_eq_of_classified _ _ _ _
            (pyReprNat_chars m₁) (pyReprNat_chars m₂)
            (sep_not_digit hr₁) (sep_not_digit hr₂) h
          rw [pyReprNat_inj hx]
          exact ⟨rfl, hr⟩
        | negSucc m₂ =>
          exfalso
          simp only [pyReprValue, pyReprInt, List.cons_append] at h
          obtain ⟨c, cs, hc⟩ := List.exists_cons_of_ne_nil (pyReprNat_ne_nil m₁)
          have hd : c.isDigit = true := pyReprNat_chars m₁ c (by rw [hc]; simp)
          rw [hc] at h
          simp only [List.cons_append, List.cons.injEq] at h
          rw [h.1] at hd
          exact absurd hd (by decide)
      | negSucc m₁ =>
        cases n₂ with
        | ofNat m₂ =>
          exfalso
          simp only [pyReprValue, pyReprInt, List.cons_append] at h
          obtain ⟨c, cs, hc⟩ := List.exists_cons_of_ne_nil (pyReprNat_ne_nil m₂)
          have hd : c.isDigit = true := pyReprNat_chars m₂ c (by rw [hc]; simp)
          rw [hc] at h
          simp only [List.cons_append, List.cons.injEq] at h
          rw [← h.1] at hd
          exact absurd hd (by decide)
        | negSucc m₂ =>
          simp only [pyReprValue, pyReprInt, List.cons_append,
            List.cons.injEq, true_and] at h
          obtain ⟨hx, hr⟩ := append_eq_of_classified _ _ _ _
            (pyReprNat_chars (m₁ + 1)) (pyReprNat_chars (m₂ + 1))
            (sep_not_digit hr₁) (sep_not_digit hr₂) h
          have hm : m₁ = m₂ := by have := pyReprNat_inj hx; omega
          exact ⟨by rw [hm], hr⟩

    | bool b₂ =>
      exfalso
      cases b₂ <;> simp only [pyReprValue, List.cons_append] at h
      · exact int_vs_letter n₁ 'F' (by decide) (by decide) _ _ h.symm
      · exact int_vs_letter n₁ 'T' (by decide) (by decide) _ _ h.symm
    | none =>
      exfalso
      simp only [pyReprValue, List.cons_append] at h
      exact int_vs_letter n₁ 'N' (by decide) (by decide) _ _ h.symm
  | bool b₁ =>
    cases v₂ with
    | str s₂ =>
      exfalso
      cases b₁ <;>
        simp only [pyReprValue, pyReprString, List.cons_append,
          List.cons.injEq] at h <;>
        exact absurd h.1 (by decide)
    | int n₂ =>
      exfalso
      cases b₁ <;> simp only [pyReprValue, List.cons_append] at h
      · exact int_vs_letter n₂ 'F' (by decide) (by decide) _ _ h
      · exact int_vs_letter n₂ 'T' (by decide) (by decide) _ _ h
    | bool b₂ =>
      cases b₁ <;> cases b₂ <;>
        simp only [pyReprValue, List.cons_append, List.cons.injEq,
          true_and] at h
      case false.false => exact ⟨rfl, h⟩
      case false.true => exact absurd h.1 (by decide)
      case true.false => exact absurd h.1 (by decide)
      case true.true => exact ⟨rfl, h⟩
    | none =>
      exfalso
      cases b₁ <;>
        simp only [pyReprValue, List.cons_append, List.cons.injEq] at h <;>
        exact absurd h.1 (by decide)
  | none =>
    cases v₂ with
    | str s₂ =>
      exfalso
      simp only [pyReprValue, pyReprString, List.cons_append,
        List.cons.injEq] at h
      exact absurd h.1 (by decide)
    | int n₂ =>
      exfalso
      simp only [pyReprValue, List.cons_append] at h
      exact int_vs_letter n₂ 'N' (by decide) (by decide) _ _ h
    | bool b₂ =>
      exfalso
      cases b₂ <;>
        simp only [pyReprValue, List.cons_append, List.cons.injEq] at h <;>
        exact absurd h.1 (by decide)
    | none =>
      simp only [pyReprValue, List.cons_append, List.cons.injEq,
        true_and] at h
      exact ⟨rfl, h⟩

lemma pyReprEntry_framed (e₁ e₂ : String × PropertyValue) (r₁ r₂ : List Char)
    (hr₁ : r₁.head? = some ',' ∨ r₁.head? = some '}')
    (hr₂ : r₂.head? = some ',' ∨ r₂.head? = some '}')
    (h : pyReprEntry e₁ ++ r₁ = pyReprEntry e₂ ++ r₂) : e₁ = e₂ ∧ r₁ = r₂ := by
  obtain ⟨k₁, v₁⟩ := e₁
  obtain ⟨k₂, v₂⟩ := e₂
  simp only [pyReprEntry, pyReprString, List.cons_append, List.append_assoc,
    List.singleton_append, List.cons.injEq, true_and] at h
  obtain ⟨hk, ht⟩ := escList_framed _ _ _ _ h
  simp only [List.nil_append, List.cons.injEq, true_and] at ht
  obtain ⟨hv, hr⟩ := pyReprValue_framed v₁ v₂ r₁ r₂ hr₁ hr₂ ht
  have hks : k₁ = k₂ := by
    cases k₁; cases k₂; exact congrArg String.mk hk
  exact ⟨by rw [hks, hv], hr⟩

lemma sepHead_more (es : Props) (r : List Char) :
    (pyReprMore es ++ '}' :: r).head? = some ',' ∨
      (pyReprMore es ++ '}' :: r).head? = some '}' := by
  cases es with
  | nil => right; rfl
  | cons e es' => left; rfl

lemma pyReprMore_framed : ∀ (es₁ es₂ : Props) (r₁ r₂ : List Char),
    pyReprMore es₁ ++ '}' :: r₁ = pyReprMore es₂ ++ '}' :: r₂ →
    es₁ = es₂ ∧ r₁ = r₂ := by
  intro es₁
  induction es₁ with
  | nil =>
    intro es₂ r₁ r₂ h
    cases es₂ with
    | nil =>
      simp only [pyReprMore, List.nil_append, List.cons.injEq, true_and] at h
      exact ⟨rfl, h⟩
    | cons e es' =>
      exfalso
      simp only [pyReprMore, List.nil_append, List.cons_append,
        List.cons.injEq] at h
      exact absurd h.1 (by decide)
  | cons e₁ es₁' ih =>
    intro es₂ r₁ r₂ h
    cases es₂ with
    | nil =>
      exfalso
      simp only [pyReprMore, List.nil_append, List.cons_append,
        List.cons.injEq] at h
      exact absurd h.1 (by decide)
    | cons e₂ es₂' =>
      simp only [pyReprMore, List.cons_append, List.append_assoc,
        List.cons.injEq, true_and] at h
      obtain ⟨he, ht⟩ := pyReprEntry_framed e₁ e₂ _ _
        (sepHead_more es₁' r₁) (sepHead_more es₂' r₂) h
      obtain ⟨hes, hr⟩ := ih es₂' r₁ r₂ ht
      exact ⟨by rw [he, hes], hr⟩

lemma pyReprEntries_framed (es₁ es₂ : Props) (r₁ r₂ : List Char)
    (h : pyReprEntries es₁ ++ '}' :: r₁ = pyReprEntries es₂ ++ '}' :: r₂) :
    es₁ = es₂ ∧ r₁ = r₂ := by
  cases es₁ with
  | nil =>
    cases es₂ with
    | nil =>
      simp only [pyReprEntries, List.nil_append, List.cons.injEq,
        true_and] at h
      exact ⟨rfl, h⟩
    | cons e es' =>
      exfalso
      simp only [pyReprEntries, pyReprEntry, pyReprString, List.nil_append,
        List.cons_append, List.append_assoc, List.cons.injEq] at h
      exact absurd h.1 (by decide)
  | cons e₁ es₁' =>
    cases es₂ with
    | nil =>
      exfalso
      simp only [pyReprEntries, pyReprEntry, pyReprString, List.nil_append,
        List.cons_append, List.append_assoc, List.cons.injEq] at h
      exact absurd h.1 (by decide)
    | cons e₂ es₂' =>
      simp only [pyReprEntries, List.append_assoc] at h
      obtain ⟨he, ht⟩ := pyReprEntry_framed e₁ e₂ _ _
        (sepHead_more es₁' r₁) (sepHead_more es₂' r₂) h
      obtain ⟨hes, hr⟩ := pyReprMore_framed es₁' es₂' r₁ r₂ ht
      exact ⟨by rw [he, hes], hr⟩

lemma pyStrChars_inj : ∀ {p₁ p₂ : Option Props},
    pyStrChars p₁ = pyStrChars p₂ → p₁ = p₂ := by
  intro p₁ p₂ h
  cases p₁ with
  | none =>
    cases p₂ with
    | none => rfl
    | some ps =>
      exfalso
      simp only [pyStrChars, List.cons.injEq] at h
      exact absurd h.1 (by decide)
  | some ps₁ =>
    cases p₂ with
    | none =>
      exfalso
      simp only [pyStrChars, List.cons.injEq] at h
      exact absurd h.1 (by decide)
    | some ps₂ =>
      simp only [pyStrChars, List.cons.injEq, true_and] at h
      obtain ⟨hes, -⟩ := pyReprEntries_framed ps₁ ps₂ [] [] h
      rw [hes]

/-- Python's `str()` on optional property dicts is injective: distinct
properties always stringify differently. -/
lemma pyStr_inj {p₁ p₂ : Option Props} (h : pyStr p₁ = pyStr p₂) : p₁ = p₂ :=
  pyStrChars_inj (congrArg String.data h)

/-- The dedup key `(id, label, str(properties))` determines the node. -/
lemma nodeKey_inj : ∀ {n₁ n₂ : Node}, nodeKey n₁ = nodeKey n₂ → n₁ = n₂ := by
  intro n₁ n₂ h
  obtain ⟨i₁, l₁, p₁⟩ := n₁
  obtain ⟨i₂, l₂, p₂⟩ := n₂
  simp only [nodeKey, Prod.mk.injEq] at h
  obtain ⟨hi, hl, hp⟩ := h
  simp only [Node.mk.injEq]
  exact ⟨hi, hl, pyStr_inj hp⟩

/-! ### Behaviour of the node dedup loop -/

lemma mem_dedupNodes : ∀ (ns : List Node) (seen : List (String × String × String))
    (m : Node), m ∈ dedupNodes ns seen ↔ m ∈ ns ∧ nodeKey m ∉ seen := by
  intro ns
  induction ns with
  | nil => simp [dedupNodes]
  | cons n rest ih =>
    intro seen m
    simp only [dedupNodes]
    split_ifs with hn
    · rw [ih]
      simp only [List.mem_cons]
      constructor
      · rintro ⟨hm, hs⟩
        exact ⟨Or.inr hm, hs⟩
      · rintro ⟨hm | hm, hs⟩
        · exact absurd (hm ▸ hn) hs
        · exact ⟨hm, hs⟩
    · simp only [List.mem_cons, ih]
      constructor
      · rintro (rfl | ⟨hm, hs⟩)
        · exact ⟨Or.inl rfl, hn⟩
        · refine ⟨Or.inr hm, fun hmem => hs ?_⟩
          simp [hmem]
      · rintro ⟨rfl | hm, hs⟩
        · exact Or.inl rfl
        · by_cases hk : nodeKey m = nodeKey n
          · exact Or.inl (nodeKey_inj hk)
          · exact Or.inr ⟨hm, by simp [hk, hs]⟩

lemma dedupNodes_nodup : ∀ (ns : List Node)
    (seen : List (String × String × String)), (dedupNodes ns seen).Nodup := by
  intro ns
  induction ns with
  | nil => intro seen; simp [dedupNodes]
  | cons n rest ih =>
    intro seen
    simp only [dedupNodes]
    split_ifs with hn
    · exact ih seen
    · rw [List.nodup_cons]
      refine ⟨fun hmem => ?_, ih _⟩
      rw [mem_dedupNodes] at hmem
      exact hmem.2 (by simp)

lemma find?_nodeKey : ∀ (ns : List Node) (n : Node), n ∈ ns →
    ns.find? (fun m => decide (nodeKey m = nodeKey n)) = some n := by
  intro ns
  induction ns with
  | nil => intro n h; simp at h
  | cons a rest ih =>
    intro n h
    by_cases hk : nodeKey a = nodeKey n
    · have : a = n := nodeKey_inj hk
      subst this
      simp [List.find?]
    · have hstep : (a :: rest).find? (fun m => decide (nodeKey m = nodeKey n)) =
          rest.find? (fun m => decide (nodeKey m = nodeKey n)) := by
        simp [List.find?, hk]
      rw [hstep]
      apply ih
      rcases List.mem_cons.mp h with rfl | hm
      · exact absurd rfl hk
      · exact hm

/-- The set of keys the dedup loop has seen after scanning `xs`, starting
from `seen`. -/
def seenAfter : List Node → List (String × String × String) →
    List (String × String × String)
  | [], seen => seen
  | n :: rest, seen =>
    if nodeKey n ∈ seen then seenAfter rest seen
    else seenAfter rest (nodeKey n :: seen)

lemma dedupNodes_append : ∀ (xs ys : List Node) seen,
    dedupNodes (xs ++ ys) seen =
      dedupNodes xs seen ++ dedupNodes ys (seenAfter xs seen) := by
  intro xs
  induction xs with
  | nil => intro ys seen; simp [dedupNodes, seenAfter]
  | cons n rest ih =>
    intro ys seen
    simp only [List.cons_append, dedupNodes, seenAfter]
    split_ifs with h <;> simp [ih]

lemma mem_seenAfter : ∀ (xs : List Node) seen k,
    k ∈ seenAfter xs seen ↔ k ∈ xs.map nodeKey ∨ k ∈ seen := by
  intro xs
  induction xs with
  | nil => intro seen k; simp [seenAfter]
  | cons n rest ih =>
    intro seen k
    simp only [seenAfter, List.map_cons, List.mem_cons]
    split_ifs with h
    · rw [ih]
      constructor
      · rintro (hk | hk)
        · exact Or.inl (Or.inr hk)
        · exact Or.inr hk
      · rintro ((rfl | hk) | hk)
        · exact Or.inr h
        · exact Or.inl hk
        · exact Or.inr hk
    · rw [ih]
      simp only [List.mem_cons]
      tauto

lemma dedupNodes_congr : ∀ (xs : List Node) s₁ s₂,
    (∀ k, k ∈ s₁ ↔ k ∈ s₂) → dedupNodes xs s₁ = dedupNodes xs s₂ := by
  intro xs
  induction xs with
  | nil => intros; rfl
  | cons n rest ih =>
    intro s₁ s₂ hs
    simp only [dedupNodes]
    by_cases h : nodeKey n ∈ s₁
    · rw [if_pos h, if_pos ((hs _).mp h), ih _ _ hs]
    · rw [if_neg h, if_neg (fun hc => h ((hs _).mpr hc)), ih]
      intro k
      simp only [List.mem_cons, hs k]

lemma dedupNodes_eq_nil : ∀ (ns : List Node) seen,
    (∀ n ∈ ns, nodeKey n ∈ seen) → dedupNodes ns seen = [] := by
  intro ns
  induction ns with
  | nil => intros; rfl
  | cons n rest ih =>
    intro seen h
    simp only [dedupNodes, if_pos (h n (by simp))]
    exact ih seen (fun m hm => h m (by simp [hm]))

/-! ### Claims about combine_chunk_graphs -/

/-- Claim C1: `combine_chunk_graphs` deduplicates nodes by the exact tuple
`(id, label, str(properties))`: two nodes with the same id and label but
different properties are both retained as distinct nodes, while nodes whose
whole key coincides are collapsed to one occurrence, namely the
first-encountered instance in iteration order. -/
theorem combine_dedup_key_exact (gs : List GraphResponse) (n₁ n₂ : Node)
    (h₁ : n₁ ∈ allNodes gs) (h₂ : n₂ ∈ allNodes gs)
    (hid : n₁.id = n₂.id) (hlabel : n₁.label = n₂.label)
    (hprops : n₁.properties ≠ n₂.properties) :
    (n₁ ∈ (combine_chunk_graphs gs).nodes ∧
     n₂ ∈ (combine_chunk_graphs gs).nodes ∧ n₁ ≠ n₂) ∧
    (∀ n ∈ allNodes gs, (combine_chunk_graphs gs).nodes.count n = 1 ∧
      (allNodes gs).find? (fun m => decide (nodeKey m = nodeKey n)) = some n) := by
  have hmem : ∀ m : Node, m ∈ (combine_chunk_graphs gs).nodes ↔ m ∈ allNodes gs := by
    intro m
    show m ∈ dedupNodes (allNodes gs) [] ↔ _
    rw [mem_dedupNodes]
    simp
  constructor
  · refine ⟨(hmem n₁).mpr h₁, (hmem n₂).mpr h₂, fun h => ?_⟩
    exact hprops (congrArg Node.properties h)
  · intro n hn
    refine ⟨List.count_eq_one_of_mem (dedupNodes_nodup _ _) ((hmem n).mpr hn), ?_⟩
    exact find?_nodeKey _ n hn

/-- Claim C6: merging `[G1, G2]` yields the unique nodes of `G1` in order,
followed by those unique nodes of `G2` whose dedup key was not already seen,
in order; relationships are concatenated in order with no deduplication. -/
theorem combine_order_preservation (G1 G2 : GraphResponse) :
    (combine_chunk_graphs [G1, G2]).nodes =
      dedupNodes G1.nodes [] ++ dedupNodes G2.nodes (G1.nodes.map nodeKey) ∧
    (combine_chunk_graphs [G1, G2]).relationships =
      G1.relationships ++ G2.relationships := by
  constructor
  · show dedupNodes (allNodes [G1, G2]) [] = _
    have hAll : allNodes [G1, G2] = G1.nodes ++ G2.nodes := by
      simp [allNodes]
    rw [hAll, dedupNodes_append]
    congr 1
    apply dedupNodes_congr
    intro k
    rw [mem_seenAfter]
    simp
  · show allRelationships [G1, G2] = _
    simp [allRelationships]

/-- Claim C7: merging `[G, G]` yields the same node sequence as merging `[G]`
and exactly twice as many relationships. -/
theorem combine_duplicate_input (G : GraphResponse) :
    (combine_chunk_graphs [G, G]).nodes = (combine_chunk_graphs [G]).nodes ∧
    (combine_chunk_graphs [G, G]).relationships.length =
      2 * G.relationships.length := by
  constructor
  · show dedupNodes (allNodes [G, G]) [] = dedupNodes (allNodes [G]) []
    have hAll : allNodes [G, G] = G.nodes ++ G.nodes := by simp [allNodes]
    have hOne : allNodes [G] = G.nodes := by simp [allNodes]
    rw [hAll, hOne, dedupNodes_append]
    have hz : dedupNodes G.nodes (seenAfter G.nodes []) = [] := by
      apply dedupNodes_eq_nil
      intro n hn
      rw [mem_seenAfter]
      exact Or.inl (List.mem_map_of_mem _ hn)
    rw [hz, List.append_nil]
  · show (allRelationships [G, G]).length = _
    simp [allRelationships]
    omega

/-- Claim C8: `combine_chunk_graphs` is total — it returns a graph for every
input list — and merging the empty sequence yields the empty graph. -/
theorem combine_never_fails :
    (∀ gs : List GraphResponse, ∃ g : GraphResponse,
      combine_chunk_graphs gs = g) ∧
    combine_chunk_graphs [] = { nodes := [], relationships := [] } :=
  ⟨fun gs => ⟨combine_chunk_graphs gs, rfl⟩, rfl⟩

/-! ### process_data post-processing (1_prepare_data.py, lines 219-261)

Python dict reads/writes on property dicts: `d.get(k, default)` returns the
value at the first matching key, `d[k] = v` overwrites the value in place
(keeping the key's position) or appends a new entry.  A Python statement that
raises is modelled by `Except`: `process_data` catches any exception raised
while post-processing a chunk and skips that chunk. -/

/-- `d.get(k, default)` on a property dict. -/
def dictGet (ps : Props) (k : String) (dflt : PropertyValue) : PropertyValue :=
  match ps.find? (fun kv => kv.1 == k) with
  | some kv => kv.2
  | Option.none => dflt

/-- `d[k] = v` on a property dict: overwrite in place, else append. -/
def dictSet : Props → String → PropertyValue → Props
  | [], k, v => [(k, v)]
  | (k', v') :: rest, k, v =>
    if k' = k then (k, v) :: rest else (k', v') :: dictSet rest k v

/-- `KOREAN_NODE_MAP` (1_prepare_data.py, lines 100-123). -/
def KOREAN_NODE_MAP : List (String × String) :=
  [("Tanjiro Kamado", "카마도 탄지로"),
   ("Nezuko Kamado", "카마도 네즈코"),
   ("Giyu Tomioka", "토미오카 기유"),
   ("Sakonji Urokodaki", "우로코다키 사콘지"),
   ("Sabito", "사비토"),
   ("Makomo", "마코모"),
   ("Zenitsu Agatsuma", "아가츠마 젠이츠"),
   ("Inosuke Hashibira", "하시비라 이노스케"),
   ("Kanao Tsuyuri", "츠유리 카나오"),
   ("Kyojuro Rengoku", "렌고쿠 쿄쥬로"),
   ("Kagaya Ubuyashiki", "우부야시키 카가야"),
   ("Shinobu Kocho", "코쵸우 시노부"),
   ("Sanemi Shinazugawa", "시나즈가와 사네미"),
   ("Muzan Kibutsuji", "키부츠지 무잔"),
   ("Susamaru", "스사마루"),
   ("Yahaba", "야하바"),
   ("Kyogai", "쿄우가이"),
   ("Rui", "루이"),
   ("Enmu", "엔무")]

/-- `english_name in KOREAN_NODE_MAP` / `KOREAN_NODE_MAP[english_name]`:
look up a canonical name, by exact string equality. -/
def koreanLookup (s : String) : Option String :=
  match KOREAN_NODE_MAP.find? (fun kv => kv.1 == s) with
  | some kv => some kv.2
  | Option.none => Option.none

/-- Step (3) of the per-chunk loop for one node: read
`node.properties.get("name", "")` and rewrite the name when it is a key of
`KOREAN_NODE_MAP`.  A node without a properties dict makes the attribute
access `node.properties.get` raise. -/
def localize_node (n : Node) : Except String Node :=
  match n.properties with
  | Option.none =>
    Except.error "AttributeError: NoneType object has no attribute get"
  | some ps =>
    match dictGet ps "name" (PropertyValue.str "") with
    | PropertyValue.str english_name =>
      match koreanLookup english_name with
      | some kr =>
        Except.ok { n with properties := some (dictSet ps "name" (PropertyValue.str kr)) }
      | Option.none => Except.ok n
    | _ => Except.ok n

/-- Step (3) applied to every node of a chunk, in order; the first raise
aborts the chunk. -/
def localizeNodes : List Node → Except String (List Node)
  | [] => Except.ok []
  | n :: rest =>
    match localize_node n with
    | Except.error e => Except.error e
    | Except.ok n' =>
      match localizeNodes rest with
      | Except.error e => Except.error e
      | Except.ok rest' => Except.ok (n' :: rest')

/-- Step (2) of the per-chunk loop: ensure a properties dict exists and set
`properties["episode_number"]`. -/
def tagRelationship (episode_number : String) (r : Relationship) : Relationship :=
  { r with
      properties := some (dictSet (r.properties.getD []) "episode_number"
        (PropertyValue.str episode_number)) }

/-- The body of the per-episode try block of `process_data` after the
extraction call: tag relationships with the episode number, then localize
node names; any raise makes the whole chunk fail. -/
def process_chunk (episode_number : String) (g : GraphResponse) :
    Except String GraphResponse :=
  match localizeNodes g.nodes with
  | Except.error e => Except.error e
  | Except.ok ns =>
    Except.ok { nodes := ns
                relationships := g.relationships.map (tagRelationship episode_number) }

/-- The per-episode loop of `process_data`: chunks whose post-processing
raises are skipped (logged and excluded), the rest are kept in order. -/
def process_chunks : List (String × GraphResponse) → List GraphResponse
  | [] => []
  | (ep, g) :: rest =>
    match process_chunk ep g with
    | Except.ok g' => g' :: process_chunks rest
    | Except.error _ => process_chunks rest

/-- `process_data` after extraction: post-process every chunk, fail if no
chunk survived, else merge. -/
def process_data (chunks : List (String × GraphResponse)) :
    Except String GraphResponse :=
  let chunk_graphs := process_chunks chunks
  if chunk_graphs.isEmpty then Except.error "그래프를 성공적으로 추출하지 못했습니다."
  else Except.ok (combine_chunk_graphs chunk_graphs)

lemma dictGet_dictSet_ne : ∀ (ps : Props) (k k' : String) (v : PropertyValue)
    (d : PropertyValue), k' ≠ k →
    dictGet (dictSet ps k v) k' d = dictGet ps k' d := by
  intro ps k k' v d hne
  induction ps with
  | nil =>
    simp only [dictSet, dictGet, List.find?]
    have hb : (k == k') = false := by simp [Ne.symm hne]
    simp [hb]
  | cons kv rest ih =>
    obtain ⟨k₀, v₀⟩ := kv
    simp only [dictSet]
    split_ifs with h
    · subst h
      simp only [dictGet, List.find?]
      have hb : (k₀ == k') = false := by simp [Ne.symm hne]
      simp [hb]
    · simp only [dictGet, List.find?] at ih ⊢
      cases hb : (k₀ == k') <;> simp [hb, ih]

/-! ### Claims about the localization step -/

/-- Claim C9: the name-localization step rewrites a node's `name` property
from canonical to display form exactly when the name equals a canonical name
of the lookup table by string equality; a node whose name matches no
canonical name passes through unchanged (all properties intact). -/
theorem localize_node_exact (n : Node) (ps : Props) (h : n.properties = some ps) :
    (∀ en kr, dictGet ps "name" (PropertyValue.str "") = PropertyValue.str en →
      koreanLookup en = some kr →
      localize_node n =
        Except.ok { n with properties := some (dictSet ps "name" (PropertyValue.str kr)) } ∧
      (∀ k d, k ≠ "name" →
        dictGet (dictSet ps "name" (PropertyValue.str kr)) k d = dictGet ps k d)) ∧
    ((∀ en, dictGet ps "name" (PropertyValue.str "") = PropertyValue.str en →
        koreanLookup en = Option.none) →
      localize_node n = Except.ok n) := by
  constructor
  · intro en kr hname hkr
    refine ⟨?_, fun k d hk => dictGet_dictSet_ne ps "name" k _ d hk⟩
    simp only [localize_node, h, hname, hkr]
  · intro hmiss
    simp only [localize_node, h]
    cases hname : dictGet ps "name" (PropertyValue.str "") with
    | str en => simp only [hname, hmiss en hname]
    | int m => simp only [hname]
    | bool b => simp only [hname]
    | none => simp only [hname]

lemma localizeNodes_error_of_none : ∀ (ns : List Node),
    (∃ n ∈ ns, n.properties = Option.none) →
    ∃ e, localizeNodes ns = Except.error e := by
  intro ns
  induction ns with
  | nil => rintro ⟨n, hn, -⟩; simp at hn
  | cons a rest ih =>
    rintro ⟨n, hn, hprops⟩
    rcases List.mem_cons.mp hn with rfl | hm
    · refine ⟨"AttributeError: NoneType object has no attribute get", ?_⟩
      simp only [localizeNodes, localize_node, hprops]
    · obtain ⟨e, he⟩ := ih ⟨n, hm, hprops⟩
      cases ha : localize_node a with
      | error e' => exact ⟨e', by simp only [localizeNodes, ha]⟩
      | ok a' => exact ⟨e, by simp only [localizeNodes, ha, he]⟩

lemma process_chunks_append : ∀ (xs ys : List (String × GraphResponse)),
    process_chunks (xs ++ ys) = process_chunks xs ++ process_chunks ys := by
  intro xs
  induction xs with
  | nil => intro ys; rfl
  | cons c rest ih =>
    intro ys
    obtain ⟨ep, g⟩ := c
    simp only [List.cons_append, process_chunks]
    cases process_chunk ep g <;> simp [ih]

/-- Claim C10: a chunk containing a node with an absent (`None`) properties
mapping makes the per-chunk post-processing raise while reading the name
property, so the whole chunk — nodes and relationships — is skipped and
excluded from the merged graph. -/
theorem chunk_with_propertyless_node_skipped (ep : String) (g : GraphResponse)
    (h : ∃ n ∈ g.nodes, n.properties = Option.none) :
    (∃ e, process_chunk ep g = Except.error e) ∧
    (∀ pre post, process_chunks (pre ++ (ep, g) :: post) =
      process_chunks pre ++ process_chunks post) ∧
    (∀ pre post, process_data (pre ++ (ep, g) :: post) =
      process_data (pre ++ post)) := by
  obtain ⟨e, he⟩ := localizeNodes_error_of_none g.nodes h
  have hchunk : process_chunk ep g = Except.error e := by
    simp only [process_chunk, he]
  have hskip : ∀ pre post, process_chunks (pre ++ (ep, g) :: post) =
      process_chunks pre ++ process_chunks post := by
    intro pre post
    rw [process_chunks_append]
    congr 1
    simp only [process_chunks, hchunk]
  refine ⟨⟨e, hchunk⟩, hskip, fun pre post => ?_⟩
  unfold process_data
  rw [hskip, process_chunks_append]

/-! ### Neo4jCreateWriter (2_ingest_data.py)

The property-graph store is modelled explicitly.  A stored node carries its
label set and property dict; edges reference stored nodes positionally (stored
nodes are only ever appended or updated in place between wipes, so positions
are stable internal identities).  The Cypher statements of the writer:

* `MERGE (n:Label {id: $id}) SET n += $props` — match every stored node
  carrying the label and whose `id` property equals `$id`; update all matches
  with `+=` (per-key add/overwrite, a `null` value removes the key), or
  create the node when there is no match;
* `MATCH (a {id: $start_id}), (b {id: $end_id}) CREATE (a)-[r:TYPE $props]->(b)`
  — one edge per row of the cartesian product of the matches of `a` and `b`
  (no label constraint, `id`-property equality only); `null` properties are
  not stored.

Each statement issued to the store may raise (driver/network faults); a fault
schedule `faults : Nat → Option String` injects an exception at the given
operation index.  `run` catches any exception and reports `FAILURE`. -/

/-- A node as stored by the graph database. -/
structure StoredNode where
  labels : List String
  props : Props
deriving DecidableEq, Repr

/-- An edge as stored by the graph database; `src`/`dst` are positions in the
store's node list. -/
structure StoredEdge where
  src : Nat
  type : String
  props : Props
  dst : Nat
deriving DecidableEq, Repr

/-- The state of the graph database. -/
structure Store where
  nodes : List StoredNode
  edges : List StoredEdge
deriving DecidableEq, Repr

/-- The `id` property of a stored node, if present. -/
def storedIdOf (sn : StoredNode) : Option PropertyValue :=
  match sn.props.find? (fun kv => kv.1 == "id") with
  | some kv => some kv.2
  | Option.none => Option.none

/-- One key of a Cypher `SET n += $props`: a `null` value removes the key,
any other value adds or overwrites it. -/
def cypherSetItem (ps : Props) (k : String) (v : PropertyValue) : Props :=
  match v with
  | PropertyValue.none => ps.filter (fun kv => !(kv.1 == k))
  | _ => dictSet ps k v

/-- Cypher `SET n += $props`, applied key by key in dict order. -/
def cypherSetPlus (base : Props) (upd : Props) : Props :=
  upd.foldl (fun acc kv => cypherSetItem acc kv.1 kv.2) base

/-- `null`-valued properties of a map literal are not stored on creation. -/
def stripNulls (ps : Props) : Props :=
  ps.filter (fun kv => !(kv.2 == PropertyValue.none))

/-- `node.properties or {}`. -/
def nodeProps (n : Node) : Props := n.properties.getD []

/-- `rel.properties or {}`. -/
def relProps (r : Relationship) : Props := r.properties.getD []

/-- Does a stored node match `MERGE (n:label {id: $id})`? -/
def nodeMatches (sn : StoredNode) (label id : String) : Bool :=
  decide (label ∈ sn.labels) &&
    decide (storedIdOf sn = some (PropertyValue.str id))

/-- `MERGE (n:label {id: $id}) SET n += $props` (2_ingest_data.py, lines
33-41): update every matching stored node, or create one. -/
def writeNode (st : Store) (n : Node) : Store :=
  if st.nodes.any (fun sn => nodeMatches sn n.label n.id) then
    { st with
        nodes := st.nodes.map (fun sn =>
          if nodeMatches sn n.label n.id then
            { sn with props := cypherSetPlus sn.props (nodeProps n) }
          else sn) }
  else
    { st with
        nodes := st.nodes ++
          [{ labels := [n.label]
             props := cypherSetPlus [("id", PropertyValue.str n.id)] (nodeProps n) }] }

/-- The positions of the stored nodes whose `id` property equals the given
id (a `MATCH (x {id: $id})` with no label constraint), counting from `i`. -/
def idxsMatching : List StoredNode → Nat → String → List Nat
  | [], _, _ => []
  | sn :: rest, i, id =>
    (if storedIdOf sn = some (PropertyValue.str id) then [i] else []) ++
      idxsMatching rest (i + 1) id

/-- The edges created for one relationship: one per row of the cartesian
product of start matches and end matches. -/
def relEdgesFor (st : Store) (r : Relationship) : List StoredEdge :=
  (idxsMatching st.nodes 0 r.start_node_id).flatMap (fun i =>
    (idxsMatching st.nodes 0 r.end_node_id).map (fun j =>
      { src := i, type := r.type, props := stripNulls (relProps r), dst := j }))

/-- `MATCH (a {id: $start_id}), (b {id: $end_id}) CREATE (a)-[r:TYPE]->(b)`
(2_ingest_data.py, lines 44-55). -/
def writeRel (st : Store) (r : Relationship) : Store :=
  { st with edges := st.edges ++ relEdgesFor st r }

/-- One store operation issued by the writer. -/
inductive TraceEvent where
  | wipe
  | nodeWrite (n : Node)
  | relWrite (r : Relationship)
deriving DecidableEq, Repr

/-- The effect of one store operation.  `wipe` is
`MATCH (n) DETACH DELETE n` (`_wipe_database`, lines 21-25). -/
def applyEvent (st : Store) : TraceEvent → Store
  | TraceEvent.wipe => { nodes := [], edges := [] }
  | TraceEvent.nodeWrite n => writeNode st n
  | TraceEvent.relWrite r => writeRel st r

/-- A fault schedule: which store operation (by running index) raises, and
with what message. -/
def FaultSpec : Type := Nat → Option String

/-- The fault-free schedule. -/
def noFaults : FaultSpec := fun _ => Option.none

/-- The schedule that raises exactly at operation `k`. -/
def failAt (k : Nat) (msg : String) : FaultSpec :=
  fun i => if i = k then some msg else Option.none

/-- Execution state: the store, the trace of completed store operations, and
the running operation counter. -/
structure ExecState where
  store : Store
  trace : List TraceEvent
  counter : Nat
deriving DecidableEq, Repr

/-- Issue one store operation: it raises according to the fault schedule, or
completes and is recorded in the trace. -/
def execOp (faults : FaultSpec) (s : ExecState) (ev : TraceEvent) :
    Except (String × ExecState) ExecState :=
  match faults s.counter with
  | some msg => Except.error (msg, { s with counter := s.counter + 1 })
  | Option.none =>
    Except.ok { store := applyEvent s.store ev
                trace := s.trace ++ [ev]
                counter := s.counter + 1 }

/-- Issue a list of store operations in order, stopping at the first raise. -/
def execOps (faults : FaultSpec) : ExecState → List TraceEvent →
    Except (String × ExecState) ExecState
  | s, [] => Except.ok s
  | s, ev :: evs =>
    match execOp faults s ev with
    | Except.ok s' => execOps faults s' evs
    | Except.error e => Except.error e

/-- The result model returned by the writer (`KGWriterModel`). -/
inductive WriterStatus where
  | SUCCESS
  | FAILURE
deriving DecidableEq, Repr

/-- `KGWriterModel(status=..., metadata=...)`. -/
structure KGWriterModel where
  status : WriterStatus
  metadata : Props
deriving DecidableEq, Repr

/-- `Neo4jCreateWriter.run` (2_ingest_data.py, lines 27-65): wipe the store,
write every node, write every relationship; catch any exception and report
`FAILURE` with the error message, else report `SUCCESS` with the counts of
submitted nodes and relationships. -/
def runWriter (faults : FaultSpec) (st : Store) (graph : GraphResponse) :
    KGWriterModel × ExecState :=
  let s0 : ExecState := { store := st, trace := [], counter := 0 }
  match execOp faults s0 TraceEvent.wipe with
  | Except.error (e, s) =>
    ({ status := WriterStatus.FAILURE, metadata := [("error", PropertyValue.str e)] }, s)
  | Except.ok s1 =>
    match execOps faults s1 (graph.nodes.map TraceEvent.nodeWrite) with
    | Except.error (e, s) =>
      ({ status := WriterStatus.FAILURE, metadata := [("error", PropertyValue.str e)] }, s)
    | Except.ok s2 =>
      match execOps faults s2 (graph.relationships.map TraceEvent.relWrite) with
      | Except.error (e, s) =>
        ({ status := WriterStatus.FAILURE, metadata := [("error", PropertyValue.str e)] }, s)
      | Except.ok s3 =>
        ({ status := WriterStatus.SUCCESS
           metadata := [("node_count", PropertyValue.int graph.nodes.length),
             ("relationship_count", PropertyValue.int graph.relationships.length)] }, s3)

/-- The full operation sequence of one `run`: the wipe, then one write per
node, then one write per relationship. -/
def allEvents (graph : GraphResponse) : List TraceEvent :=
  TraceEvent.wipe :: (graph.nodes.map TraceEvent.nodeWrite ++
    graph.relationships.map TraceEvent.relWrite)

/-! ### Characterizing the writer's execution -/

lemma execOps_append (faults : FaultSpec) : ∀ (evs₁ evs₂ : List TraceEvent)
    (s : ExecState), execOps faults s (evs₁ ++ evs₂) =
      match execOps faults s evs₁ with
      | Except.ok s' => execOps faults s' evs₂
      | Except.error e => Except.error e := by
  intro evs₁
  induction evs₁ with
  | nil => intro evs₂ s; rfl
  | cons ev evs ih =>
    intro evs₂ s
    simp only [List.cons_append, execOps]
    cases execOp faults s ev with
    | ok s' => exact ih evs₂ s'
    | error e => rfl

lemma execOps_ok (faults : FaultSpec) : ∀ (evs : List TraceEvent) (s : ExecState),
    (∀ i, i < evs.length → faults (s.counter + i) = Option.none) →
    execOps faults s evs = Except.ok
      { store := evs.foldl applyEvent s.store
        trace := s.trace ++ evs
        counter := s.counter + evs.length } := by
  intro evs
  induction evs with
  | nil =>
    intro s h
    simp [execOps]
  | cons ev evs ih =>
    intro s h
    have h0 : faults s.counter = Option.none := by
      have := h 0 (by simp)
      simpa using this
    simp only [execOps, execOp, h0]
    rw [ih _ ?_]
    · have hc : s.counter + 1 + evs.length = s.counter + (ev :: evs).length := by
        simp
        omega
      rw [hc]
      have ht : (s.trace ++ [ev]) ++ evs = s.trace ++ ev :: evs := by
        simp
      rw [ht]
      rfl
    · intro i hi
      have := h (i + 1) (by simpa using Nat.succ_lt_succ hi)
      rw [show s.counter + 1 + i = s.counter + (i + 1) by omega]
      exact this

lemma execOps_err (faults : FaultSpec) : ∀ (evs : List TraceEvent) (s : ExecState)
    (k : Nat) (msg : String), k < evs.length →
    (∀ i, i < k → faults (s.counter + i) = Option.none) →
    faults (s.counter + k) = some msg →
    execOps faults s evs = Except.error (msg,
      { store := (evs.take k).foldl applyEvent s.store
        trace := s.trace ++ evs.take k
        counter := s.counter + k + 1 }) := by
  intro evs
  induction evs with
  | nil =>
    intro s k msg hk
    simp at hk
  | cons ev evs ih =>
    intro s k msg hk hbefore hat
    cases k with
    | zero =>
      simp only [Nat.add_zero] at hat
      simp only [execOps, execOp, hat]
      simp [List.take]
    | succ k' =>
      have h0 : faults s.counter = Option.none := by
        have := hbefore 0 (Nat.succ_pos k')
        simpa using this
      simp only [execOps, execOp, h0]
      have hb' : ∀ i, i < k' → faults (s.counter + 1 + i) = Option.none := by
        intro i hi
        rw [show s.counter + 1 + i = s.counter + (i + 1) by omega]
        exact hbefore (i + 1) (by omega)
      have ha' : faults (s.counter + 1 + k') = some msg := by
        rw [show s.counter + 1 + k' = s.counter + (k' + 1) by omega]
        exact hat
      rw [ih ⟨applyEvent s.store ev, s.trace ++ [ev], s.counter + 1⟩ k' msg
        (by simpa using hk) hb' ha']
      have hc : s.counter + 1 + k' + 1 = s.counter + (k' + 1) + 1 := by omega
      have ht : (s.trace ++ [ev]) ++ evs.take k' = s.trace ++ (ev :: evs).take (k' + 1) := by
        simp [List.take_succ_cons]
      rw [hc, ht]
      rfl

lemma runWriter_of_ok (faults : FaultSpec) (st : Store) (g : GraphResponse)
    (s : ExecState)
    (h : execOps faults { store := st, trace := [], counter := 0 } (allEvents g) =
      Except.ok s) :
    runWriter faults st g =
      ({ status := WriterStatus.SUCCESS
         metadata := [("node_count", PropertyValue.int g.nodes.length),
           ("relationship_count", PropertyValue.int g.relationships.length)] }, s) := by
  unfold allEvents at h
  simp only [execOps] at h
  simp only [runWriter]
  cases hw : execOp faults { store := st, trace := [], counter := 0 }
      TraceEvent.wipe with
  | error e =>
    obtain ⟨msg, s'⟩ := e
    rw [hw] at h
    dsimp only at h
    exact absurd h (by simp)
  | ok s1 =>
    rw [hw] at h
    dsimp only at h ⊢
    rw [execOps_append] at h
    cases hN : execOps faults s1 (g.nodes.map TraceEvent.nodeWrite) with
    | error e =>
      obtain ⟨msg, s'⟩ := e
      rw [hN] at h
      dsimp only at h
      exact absurd h (by simp)
    | ok s2 =>
      rw [hN] at h
      dsimp only at h ⊢
      rw [h]

lemma runWriter_of_err (faults : FaultSpec) (st : Store) (g : GraphResponse)
    (e : String) (s : ExecState)
    (h : execOps faults { store := st, trace := [], counter := 0 } (allEvents g) =
      Except.error (e, s)) :
    runWriter faults st g =
      ({ status := WriterStatus.FAILURE
         metadata := [("error", PropertyValue.str e)] }, s) := by
  unfold allEvents at h
  simp only [execOps] at h
  simp only [runWriter]
  cases hw : execOp faults { store := st, trace := [], counter := 0 }
      TraceEvent.wipe with
  | error e0 =>
    obtain ⟨msg, s'⟩ := e0
    rw [hw] at h
    dsimp only at h ⊢
    obtain ⟨rfl, rfl⟩ : msg = e ∧ s' = s := by
      have h2 := Except.error.inj h
      exact ⟨congrArg Prod.fst h2, congrArg Prod.snd h2⟩
    rfl
  | ok s1 =>
    rw [hw] at h
    dsimp only at h ⊢
    rw [execOps_append] at h
    cases hN : execOps faults s1 (g.nodes.map TraceEvent.nodeWrite) with
    | error e0 =>
      obtain ⟨msg, s'⟩ := e0
      rw [hN] at h
      dsimp only at h ⊢
      obtain ⟨rfl, rfl⟩ : msg = e ∧ s' = s := by
        have h2 := Except.error.inj h
        exact ⟨congrArg Prod.fst h2, congrArg Prod.snd h2⟩
      rfl
    | ok s2 =>
      rw [hN] at h
      dsimp only at h ⊢
      cases hR : execOps faults s2 (g.relationships.map TraceEvent.relWrite) with
      | error e0 =>
        obtain ⟨msg, s'⟩ := e0
        rw [hR] at h
        dsimp only at h ⊢
        obtain ⟨rfl, rfl⟩ : msg = e ∧ s' = s := by
          have h2 := Except.error.inj h
          exact ⟨congrArg Prod.fst h2, congrArg Prod.snd h2⟩
        rfl
      | ok s3 =>
        rw [hR] at h
        exact absurd h (by simp)

lemma runWriter_ok (faults : FaultSpec) (st : Store) (g : GraphResponse)
    (h : ∀ i, i < (allEvents g).length → faults i = Option.none) :
    runWriter faults st g =
      ({ status := WriterStatus.SUCCESS
         metadata := [("node_count", PropertyValue.int g.nodes.length),
           ("relationship_count", PropertyValue.int g.relationships.length)] },
       { store := (allEvents g).foldl applyEvent st
         trace := allEvents g
         counter := (allEvents g).length }) := by
  apply runWriter_of_ok
  rw [execOps_ok faults (allEvents g) { store := st, trace := [], counter := 0 }
    (by intro i hi; simpa using h i hi)]
  simp

lemma runWriter_err (faults : FaultSpec) (st : Store) (g : GraphResponse)
    (k : Nat) (msg : String) (hk : k < (allEvents g).length)
    (hb : ∀ i, i < k → faults i = Option.none) (hat : faults k = some msg) :
    runWriter faults st g =
      ({ status := WriterStatus.FAILURE
         metadata := [("error", PropertyValue.str msg)] },
       { store := ((allEvents g).take k).foldl applyEvent st
         trace := (allEvents g).take k
         counter := k + 1 }) := by
  apply runWriter_of_err
  rw [execOps_err faults (allEvents g) { store := st, trace := [], counter := 0 }
    k msg hk (by intro i hi; simpa using hb i hi) (by simpa using hat)]
  simp

/-! ### Claims about the writer's execution order and failure handling -/

/-- Claim C3: in every execution of `run`, the completed store operations are
an initial segment of: the destructive reset first, then all node writes,
then all relationship writes — so no node write precedes the reset and no
relationship write precedes a node write — and a successful run completes
exactly that sequence. -/
theorem writer_strict_operation_order (faults : FaultSpec) (st : Store)
    (g : GraphResponse) :
    (∃ rest, (runWriter faults st g).2.trace ++ rest = allEvents g) ∧
    ((runWriter faults st g).1.status = WriterStatus.SUCCESS →
      (runWriter faults st g).2.trace = allEvents g) := by
  by_cases hall : ∀ i, i < (allEvents g).length → faults i = Option.none
  · rw [runWriter_ok faults st g hall]
    exact ⟨⟨[], by simp⟩, fun _ => rfl⟩
  · push_neg at hall
    obtain ⟨i0, hi0, hne0⟩ := hall
    have hex : ∃ i, i < (allEvents g).length ∧ faults i ≠ Option.none :=
      ⟨i0, hi0, hne0⟩
    obtain ⟨hk, hne⟩ := Nat.find_spec hex
    obtain ⟨msg, hmsg⟩ := Option.ne_none_iff_exists'.mp hne
    have hb : ∀ i, i < Nat.find hex → faults i = Option.none := by
      intro i hi
      by_contra hcon
      exact Nat.find_min hex hi ⟨lt_trans hi hk, hcon⟩
    rw [runWriter_err faults st g (Nat.find hex) msg hk hb hmsg]
    refine ⟨⟨(allEvents g).drop (Nat.find hex), by simp⟩, fun hs => ?_⟩
    simp at hs

/-- Claim C5: an exception at any store operation — the reset (index 0), a
node write, or a relationship write — makes `run` return `FAILURE` with the
error message in its metadata instead of propagating the exception, and the
final store is exactly the result of the operations applied before the
failure point: partial mutations persist, nothing is rolled back. -/
theorem load_failure_reported_not_atomic (st : Store) (g : GraphResponse)
    (k : Nat) (msg : String) (hk : k < (allEvents g).length) :
    runWriter (failAt k msg) st g =
      ({ status := WriterStatus.FAILURE
         metadata := [("error", PropertyValue.str msg)] },
       { store := ((allEvents g).take k).foldl applyEvent st
         trace := (allEvents g).take k
         counter := k + 1 }) := by
  apply runWriter_err _ _ _ k msg hk
  · intro i hi
    simp only [failAt]
    rw [if_neg (Nat.ne_of_lt hi)]
  · simp [failAt]

/-! ### Store-level lemmas for the node and relationship write phases -/

/-- Generic lookup of a property value by key. -/
def propFind (ps : Props) (k : String) : Option PropertyValue :=
  match ps.find? (fun kv => kv.1 == k) with
  | some kv => some kv.2
  | Option.none => Option.none

lemma storedIdOf_eq (sn : StoredNode) : storedIdOf sn = propFind sn.props "id" := rfl

lemma propFind_dictSet_ne (ps : Props) (k k' : String) (v : PropertyValue)
    (h : k' ≠ k) : propFind (dictSet ps k' v) k = propFind ps k := by
  induction ps with
  | nil =>
    simp only [dictSet, propFind, List.find?]
    have hb : (k' == k) = false := by simp [h]
    simp [hb]
  | cons kv rest ih =>
    obtain ⟨k₀, v₀⟩ := kv
    simp only [dictSet]
    split_ifs with h0
    · subst h0
      simp only [propFind, List.find?]
      have hb : (k₀ == k) = false := by simp [h]
      simp [hb]
    · simp only [propFind, List.find?] at ih ⊢
      cases hb : (k₀ == k) <;> simp [hb, ih]

lemma propFind_filter_ne (ps : Props) (k k' : String) (h : k' ≠ k) :
    propFind (ps.filter (fun kv => !(kv.1 == k'))) k = propFind ps k := by
  induction ps with
  | nil => rfl
  | cons kv rest ih =>
    obtain ⟨k₀, v₀⟩ := kv
    by_cases h0 : k₀ = k'
    · subst h0
      have hb : (k₀ == k) = false := by simp [h]
      have hstep : ((k₀, v₀) :: rest).filter (fun kv => !(kv.1 == k₀)) =
          rest.filter (fun kv => !(kv.1 == k₀)) := by
        simp [List.filter_cons]
      rw [hstep, ih]
      simp only [propFind, List.find?, hb, cond_false]
    · have hb0 : (k₀ == k') = false := by simp [h0]
      have hstep : ((k₀, v₀) :: rest).filter (fun kv => !(kv.1 == k')) =
          (k₀, v₀) :: rest.filter (fun kv => !(kv.1 == k')) := by
        simp [List.filter_cons, hb0]
      rw [hstep]
      simp only [propFind, List.find?] at ih ⊢
      cases hb : (k₀ == k) with
      | true => simp [hb]
      | false => simp only [hb, cond_false]; exact ih

lemma propFind_cypherSetItem_ne (ps : Props) (k k' : String) (v : PropertyValue)
    (h : k' ≠ k) : propFind (cypherSetItem ps k' v) k = propFind ps k := by
  cases v with
  | none => exact propFind_filter_ne ps k k' h
  | str s => exact propFind_dictSet_ne ps k k' _ h
  | int n => exact propFind_dictSet_ne ps k k' _ h
  | bool b => exact propFind_dictSet_ne ps k k' _ h

lemma propFind_cypherSetPlus_not_mem : ∀ (upd base : Props) (k : String),
    k ∉ upd.map Prod.fst →
    propFind (cypherSetPlus base upd) k = propFind base k := by
  intro upd
  induction upd with
  | nil => intro base k _; rfl
  | cons kv rest ih =>
    intro base k hk
    obtain ⟨k₀, v₀⟩ := kv
    simp only [List.map_cons, List.mem_cons, not_or] at hk
    show propFind (cypherSetPlus (cypherSetItem base k₀ v₀) rest) k = propFind base k
    rw [ih _ k hk.2, propFind_cypherSetItem_ne _ _ _ _ (fun hc => hk.1 hc.symm)]

/-- The stored node that `MERGE` creates for a graph node. -/
def mkStored (n : Node) : StoredNode :=
  { labels := [n.label]
    props := cypherSetPlus [("id", PropertyValue.str n.id)] (nodeProps n) }

lemma storedIdOf_mkStored (n : Node) (h : "id" ∉ (nodeProps n).map Prod.fst) :
    storedIdOf (mkStored n) = some (PropertyValue.str n.id) := by
  show propFind (cypherSetPlus [("id", PropertyValue.str n.id)] (nodeProps n)) "id" = _
  rw [propFind_cypherSetPlus_not_mem _ _ _ h]
  rfl

lemma writeNode_no_match (st : Store) (n : Node)
    (h : ∀ sn ∈ st.nodes, storedIdOf sn ≠ some (PropertyValue.str n.id)) :
    writeNode st n = { nodes := st.nodes ++ [mkStored n], edges := st.edges } := by
  unfold writeNode
  have hany : st.nodes.any (fun sn => nodeMatches sn n.label n.id) = false := by
    rw [List.any_eq_false]
    intro sn hsn
    unfold nodeMatches
    simp [h sn hsn]
  simp [hany, mkStored]

lemma writeNode_match (st : Store) (n : Node)
    (h : st.nodes.any (fun sn => nodeMatches sn n.label n.id) = true) :
    writeNode st n = { st with nodes := st.nodes.map (fun sn =>
      if nodeMatches sn n.label n.id then
        { sn with props := cypherSetPlus sn.props (nodeProps n) }
      else sn) } := by
  unfold writeNode
  simp [h]

lemma any_nodeMatches_congr : ∀ (xs ys : List StoredNode),
    xs.map storedIdOf = ys.map storedIdOf →
    xs.map StoredNode.labels = ys.map StoredNode.labels →
    ∀ l i, xs.any (fun sn => nodeMatches sn l i) =
      ys.any (fun sn => nodeMatches sn l i) := by
  intro xs
  induction xs with
  | nil =>
    intro ys h _ l i
    cases ys with
    | nil => rfl
    | cons y ys => simp at h
  | cons x xs ih =>
    intro ys h hl l i
    cases ys with
    | nil => simp at h
    | cons y ys =>
      simp only [List.map_cons, List.cons.injEq] at h hl
      simp only [List.any_cons]
      rw [ih ys h.2 hl.2 l i]
      have hm : nodeMatches x l i = nodeMatches y l i := by
        unfold nodeMatches
        rw [h.1, hl.1]
      rw [hm]

lemma writeNode_match_invariants (st : Store) (n : Node)
    (hnoid : "id" ∉ (nodeProps n).map Prod.fst)
    (h : st.nodes.any (fun sn => nodeMatches sn n.label n.id) = true) :
    (writeNode st n).nodes.length = st.nodes.length ∧
    (writeNode st n).nodes.map storedIdOf = st.nodes.map storedIdOf ∧
    (writeNode st n).nodes.map StoredNode.labels = st.nodes.map StoredNode.labels ∧
    (writeNode st n).edges = st.edges := by
  rw [writeNode_match st n h]
  refine ⟨by simp, ?_, ?_, rfl⟩
  · rw [List.map_map]
    apply List.map_congr_left
    intro sn _
    cases hmB : nodeMatches sn n.label n.id with
    | true =>
      simp only [Function.comp, hmB, if_true]
      show propFind (cypherSetPlus sn.props (nodeProps n)) "id" = _
      rw [propFind_cypherSetPlus_not_mem _ _ _ hnoid]
      rfl
    | false => simp [Function.comp, hmB]
  · rw [List.map_map]
    apply List.map_congr_left
    intro sn _
    cases hmB : nodeMatches sn n.label n.id <;> simp [Function.comp, hmB]

lemma writeNodes_fresh : ∀ (ns : List Node) (st : Store),
    (ns.map Node.id).Nodup →
    (∀ n ∈ ns, "id" ∉ (nodeProps n).map Prod.fst) →
    (∀ n ∈ ns, ∀ sn ∈ st.nodes, storedIdOf sn ≠ some (PropertyValue.str n.id)) →
    ns.foldl writeNode st = { nodes := st.nodes ++ ns.map mkStored, edges := st.edges } := by
  intro ns
  induction ns with
  | nil =>
    intro st _ _ _
    cases st
    simp
  | cons n rest ih =>
    intro st hnodup hnoid hfresh
    simp only [List.foldl_cons, List.map_cons]
    rw [writeNode_no_match st n (hfresh n (by simp))]
    rw [ih]
    · simp [List.append_assoc]
    · rw [List.map_cons, List.nodup_cons] at hnodup
      exact hnodup.2
    · intro m hm
      exact hnoid m (by simp [hm])
    · intro m hm sn hsn
      rcases List.mem_append.mp hsn with hold | hnew
      · exact hfresh m (by simp [hm]) sn hold
      · simp only [List.mem_singleton] at hnew
        subst hnew
        rw [storedIdOf_mkStored n (hnoid n (by simp))]
        intro hc
        have hid : n.id = m.id := by simpa using hc
        rw [List.map_cons, List.nodup_cons] at hnodup
        exact hnodup.1 (hid ▸ List.mem_map_of_mem Node.id hm)

lemma writeNodes_update : ∀ (ns : List Node) (st : Store),
    (∀ n ∈ ns, "id" ∉ (nodeProps n).map Prod.fst) →
    (∀ n ∈ ns, st.nodes.any (fun sn => nodeMatches sn n.label n.id) = true) →
    (ns.foldl writeNode st).nodes.length = st.nodes.length ∧
    (ns.foldl writeNode st).nodes.map storedIdOf = st.nodes.map storedIdOf ∧
    (ns.foldl writeNode st).nodes.map StoredNode.labels =
      st.nodes.map StoredNode.labels ∧
    (ns.foldl writeNode st).edges = st.edges := by
  intro ns
  induction ns with
  | nil => intro st _ _; exact ⟨rfl, rfl, rfl, rfl⟩
  | cons n rest ih =>
    intro st hnoid hmatch
    obtain ⟨l1, m1, lb1, e1⟩ :=
      writeNode_match_invariants st n (hnoid n (by simp)) (hmatch n (by simp))
    have hmatch' : ∀ m ∈ rest, (writeNode st n).nodes.any
        (fun sn => nodeMatches sn m.label m.id) = true := by
      intro m hm
      rw [any_nodeMatches_congr _ _ m1 lb1]
      exact hmatch m (by simp [hm])
    obtain ⟨l2, m2, lb2, e2⟩ := ih (writeNode st n)
      (fun m hm => hnoid m (by simp [hm])) hmatch'
    simp only [List.foldl_cons]
    exact ⟨l2.trans l1, m2.trans m1, lb2.trans lb1, e2.trans e1⟩

lemma writeRels_spec : ∀ (rs : List Relationship) (st : Store),
    (rs.foldl writeRel st).nodes = st.nodes ∧
    (rs.foldl writeRel st).edges = st.edges ++ rs.flatMap (relEdgesFor st) := by
  intro rs
  induction rs with
  | nil =>
    intro st
    refine ⟨rfl, ?_⟩
    show st.edges = st.edges ++ []
    rw [List.append_nil]
  | cons r rest ih =>
    intro st
    simp only [List.foldl_cons]
    obtain ⟨h1, h2⟩ := ih (writeRel st r)
    have hn : (writeRel st r).nodes = st.nodes := rfl
    have hf : ∀ r', relEdgesFor (writeRel st r) r' = relEdgesFor st r' := by
      intro r'
      unfold relEdgesFor
      rw [hn]
    constructor
    · rw [h1, hn]
    · rw [h2]
      have hf' : relEdgesFor (writeRel st r) = relEdgesFor st := funext hf
      rw [hf']
      show (st.edges ++ relEdgesFor st r) ++ rest.flatMap (relEdgesFor st) = _
      simp [List.flatMap_cons, List.append_assoc]

lemma idxsMatching_length : ∀ (sns : List StoredNode) (i : Nat) (id : String),
    (idxsMatching sns i id).length =
      (sns.map storedIdOf).count (some (PropertyValue.str id)) := by
  intro sns
  induction sns with
  | nil => intro i id; simp [idxsMatching]
  | cons sn rest ih =>
    intro i id
    simp only [idxsMatching, List.map_cons, List.length_append]
    rw [ih (i + 1) id, List.count_cons]
    by_cases h : storedIdOf sn = some (PropertyValue.str id)
    · have hb : (storedIdOf sn == some (PropertyValue.str id)) = true := by
        simp [h]
      rw [if_pos h, if_pos hb]
      simp [Nat.add_comm]
    · have hb : (storedIdOf sn == some (PropertyValue.str id)) = false := by
        simp [h]
      rw [if_neg h, hb]
      simp

lemma idxsMatching_nil : ∀ (sns : List StoredNode) (i : Nat) (id : String),
    PropertyValue.str id ∉ sns.filterMap storedIdOf →
    idxsMatching sns i id = [] := by
  intro sns
  induction sns with
  | nil => intro i id _; rfl
  | cons sn rest ih =>
    intro i id h
    simp only [List.filterMap_cons] at h
    simp only [idxsMatching]
    have hne : ¬ storedIdOf sn = some (PropertyValue.str id) := by
      intro hc
      rw [hc] at h
      simp at h
    rw [if_neg hne]
    refine ih _ _ (fun hc => ?_)
    cases hv : storedIdOf sn with
    | none =>
      rw [hv] at h
      exact h hc
    | some v =>
      rw [hv] at h
      exact h (List.mem_cons_of_mem _ hc)

lemma length_flatMap_map_const {α β γ : Type} (as : List α) (bs : List β)
    (f : α → β → γ) :
    (as.flatMap (fun a => bs.map (f a))).length = as.length * bs.length := by
  induction as with
  | nil => simp
  | cons a as ih =>
    simp only [List.flatMap_cons, List.length_append, List.length_map,
      List.length_cons, ih]
    ring

lemma relEdgesFor_length (st : Store) (r : Relationship) :
    (relEdgesFor st r).length =
      (idxsMatching st.nodes 0 r.start_node_id).length *
        (idxsMatching st.nodes 0 r.end_node_id).length := by
  unfold relEdgesFor
  exact length_flatMap_map_const _ _ _

lemma relEdgesFor_nil_of_dangling (st : Store) (r : Relationship)
    (h : PropertyValue.str r.start_node_id ∉ st.nodes.filterMap storedIdOf ∨
      PropertyValue.str r.end_node_id ∉ st.nodes.filterMap storedIdOf) :
    relEdgesFor st r = [] := by
  unfold relEdgesFor
  rcases h with h | h
  · rw [idxsMatching_nil _ _ _ h]
    rfl
  · rw [idxsMatching_nil _ _ _ h]
    simp

lemma count_map_some_str : ∀ (ids : List String) (id : String), ids.Nodup →
    id ∈ ids →
    (ids.map (fun i => some (PropertyValue.str i))).count
      (some (PropertyValue.str id)) = 1 := by
  intro ids
  induction ids with
  | nil => intro id _ hm; simp at hm
  | cons a rest ih =>
    intro id hnodup hm
    rw [List.map_cons, List.count_cons]
    rw [List.nodup_cons] at hnodup
    rcases List.mem_cons.mp hm with rfl | hrest
    · have h0 : (rest.map (fun i => some (PropertyValue.str i))).count
          (some (PropertyValue.str id)) = 0 := by
        rw [List.count_eq_zero]
        intro hc
        simp only [List.mem_map] at hc
        obtain ⟨i, hi, hii⟩ := hc
        have hiid : i = id := by simpa using hii
        exact hnodup.1 (hiid ▸ hi)
      rw [h0]
      simp
    · have hane : a ≠ id := fun hc => hnodup.1 (hc ▸ hrest)
      have hb : ((some (PropertyValue.str a) : Option PropertyValue) ==
          some (PropertyValue.str id)) = false := by
        simp [hane]
      rw [ih id hnodup.2 hrest, hb]
      simp

lemma flatMap_length_of_one {α β : Type} : ∀ (l : List α) (f : α → List β),
    (∀ a ∈ l, (f a).length = 1) → (l.flatMap f).length = l.length := by
  intro l
  induction l with
  | nil => intro f _; rfl
  | cons a rest ih =>
    intro f h
    simp only [List.flatMap_cons, List.length_append, List.length_cons]
    rw [h a (by simp), ih f (fun b hb => h b (by simp [hb]))]
    omega

lemma writeNodes_edges : ∀ (ns : List Node) (st : Store),
    (ns.foldl writeNode st).edges = st.edges := by
  intro ns
  induction ns with
  | nil => intro st; rfl
  | cons n rest ih =>
    intro st
    simp only [List.foldl_cons]
    rw [ih]
    unfold writeNode
    split_ifs <;> rfl

/-! ### Claims about loading: double load and dangling relationships -/

/-- The write phase of a load: all node writes then all relationship writes,
with no destructive reset in front. -/
def writePhase (st : Store) (g : GraphResponse) : Store :=
  (g.nodes.map TraceEvent.nodeWrite ++
    g.relationships.map TraceEvent.relWrite).foldl applyEvent st

lemma writePhase_eq (st : Store) (g : GraphResponse) :
    writePhase st g =
      g.relationships.foldl writeRel (g.nodes.foldl writeNode st) := by
  unfold writePhase
  rw [List.foldl_append, List.foldl_map, List.foldl_map]
  rfl

/-- Loading a graph twice without an intervening reset: one full load (reset
plus write phase) followed by a second write phase. -/
def doubleLoadStore (st : Store) (g : GraphResponse) : Store :=
  writePhase (writePhase (applyEvent st TraceEvent.wipe) g) g

/-- Two distinct nodes that share id and label. -/
def cexNode1 : Node :=
  { id := "A", label := "L", properties := some [("p", PropertyValue.str "x")] }

/-- Two distinct nodes that share id and label. -/
def cexNode2 : Node :=
  { id := "A", label := "L", properties := some [("p", PropertyValue.str "y")] }

/-- A relationship whose end node id is never written. -/
def cexRel : Relationship :=
  { type := "R", start_node_id := "A", end_node_id := "Z",
    properties := Option.none }

/-- A graph with two distinct nodes and one relationship that falsifies the
double-load claim as stated. -/
def cexGraph : GraphResponse :=
  { nodes := [cexNode1, cexNode2], relationships := [cexRel] }

/-- Claim C2 counterexample: `cexGraph` has N = 2 distinct nodes and M = 1
relationships, yet loading it twice without an intervening reset leaves one
stored node (the two distinct nodes share `(label, id)`, so the upsert merges
them) and zero stored edges (the relationship's end id matches no stored
node), not N nodes and 2M edges. -/
theorem double_load_counterexample :
    (cexGraph.nodes.Nodup ∧ cexGraph.nodes.length = 2 ∧
      cexGraph.relationships.length = 1) ∧
    ¬((doubleLoadStore { nodes := [], edges := [] } cexGraph).nodes.length = 2 ∧
      (doubleLoadStore { nodes := [], edges := [] } cexGraph).edges.length =
        2 * 1) := by
  decide

/-- Claim C2 (amended): for a graph whose nodes carry pairwise distinct ids,
whose node properties never contain the key `id`, and whose relationships
reference node ids of the graph, loading twice without an intervening reset
leaves exactly N stored nodes (the node upsert collapses the repeated writes)
and 2M stored edges (relationship creation never collapses repeats). -/
theorem double_load_amended (st : Store) (g : GraphResponse)
    (hids : (g.nodes.map Node.id).Nodup)
    (hnoid : ∀ n ∈ g.nodes, "id" ∉ (nodeProps n).map Prod.fst)
    (hends : ∀ r ∈ g.relationships, r.start_node_id ∈ g.nodes.map Node.id ∧
      r.end_node_id ∈ g.nodes.map Node.id) :
    (doubleLoadStore st g).nodes.length = g.nodes.length ∧
    (doubleLoadStore st g).edges.length = 2 * g.relationships.length := by
  have hwipe : applyEvent st TraceEvent.wipe = { nodes := [], edges := [] } := rfl
  unfold doubleLoadStore
  rw [hwipe, writePhase_eq, writePhase_eq]
  have h1 : g.nodes.foldl writeNode { nodes := [], edges := [] } =
      { nodes := g.nodes.map mkStored, edges := [] } := by
    rw [writeNodes_fresh g.nodes _ hids hnoid
      (by intro n _ sn hsn; simp at hsn)]
    rfl
  rw [h1]
  have hmap : (g.nodes.map mkStored).map storedIdOf =
      (g.nodes.map Node.id).map (fun i => some (PropertyValue.str i)) := by
    rw [List.map_map, List.map_map]
    apply List.map_congr_left
    intro n hn
    simp only [Function.comp]
    exact storedIdOf_mkStored n (hnoid n hn)
  have hone : ∀ (S : Store), S.nodes.map storedIdOf =
      (g.nodes.map Node.id).map (fun i => some (PropertyValue.str i)) →
      ∀ r ∈ g.relationships, (relEdgesFor S r).length = 1 := by
    intro S hS r hr
    rw [relEdgesFor_length, idxsMatching_length, idxsMatching_length, hS,
      count_map_some_str _ _ hids (hends r hr).1,
      count_map_some_str _ _ hids (hends r hr).2]
  obtain ⟨hS2nodes, hS2edges⟩ :=
    writeRels_spec g.relationships { nodes := g.nodes.map mkStored, edges := [] }
  have hS2len : (g.relationships.flatMap
      (relEdgesFor { nodes := g.nodes.map mkStored, edges := [] })).length =
      g.relationships.length :=
    flatMap_length_of_one _ _ (hone _ (by simpa using hmap))
  have hmatch : ∀ n ∈ g.nodes,
      (g.relationships.foldl writeRel
        { nodes := g.nodes.map mkStored, edges := [] }).nodes.any
        (fun sn => nodeMatches sn n.label n.id) = true := by
    intro n hn
    rw [hS2nodes, List.any_eq_true]
    refine ⟨mkStored n, List.mem_map_of_mem _ hn, ?_⟩
    unfold nodeMatches
    rw [storedIdOf_mkStored n (hnoid n hn)]
    simp [mkStored]
  obtain ⟨hl3, hm3, hlb3, he3⟩ := writeNodes_update g.nodes
    (g.relationships.foldl writeRel { nodes := g.nodes.map mkStored, edges := [] })
    hnoid hmatch
  obtain ⟨hS4nodes, hS4edges⟩ := writeRels_spec g.relationships
    (g.nodes.foldl writeNode
      (g.relationships.foldl writeRel { nodes := g.nodes.map mkStored, edges := [] }))
  have hmap3 : (g.nodes.foldl writeNode
      (g.relationships.foldl writeRel
        { nodes := g.nodes.map mkStored, edges := [] })).nodes.map storedIdOf =
      (g.nodes.map Node.id).map (fun i => some (PropertyValue.str i)) := by
    rw [hm3, hS2nodes, hmap]
  have hS4len : (g.relationships.flatMap (relEdgesFor
      (g.nodes.foldl writeNode
        (g.relationships.foldl writeRel
          { nodes := g.nodes.map mkStored, edges := [] })))).length =
      g.relationships.length :=
    flatMap_length_of_one _ _ (hone _ hmap3)
  constructor
  · rw [hS4nodes]
    have : (g.nodes.foldl writeNode
        (g.relationships.foldl writeRel
          { nodes := g.nodes.map mkStored, edges := [] })).nodes.length =
        (g.nodes.map mkStored).length := by
      rw [hl3, hS2nodes]
    rw [this, List.length_map]
  · rw [hS4edges, List.length_append, hS4len, he3, hS2edges,
      List.length_append, hS2len]
    simp
    omega

/-- The store after the reset and the node-write phase of a load. -/
def writtenStore (g : GraphResponse) : Store :=
  g.nodes.foldl writeNode { nodes := [], edges := [] }

/-- The node ids present in the store after the node-write phase. -/
def writtenNodeIds (g : GraphResponse) : List PropertyValue :=
  (writtenStore g).nodes.filterMap storedIdOf

/-- Claim C4: a relationship whose start or end id is absent from the written
node ids creates zero edges, yet the load is not aborted: the run reports
`SUCCESS`, signals no error, and its `relationship_count` metadata counts
every submitted relationship — including the dangling one — while the stored
edges are exactly the per-relationship created edges. -/
theorem dangling_relationship_lossy (st : Store) (g : GraphResponse)
    (r : Relationship) (hr : r ∈ g.relationships)
    (hdangling : PropertyValue.str r.start_node_id ∉ writtenNodeIds g ∨
      PropertyValue.str r.end_node_id ∉ writtenNodeIds g) :
    relEdgesFor (writtenStore g) r = [] ∧
    (runWriter noFaults st g).1 =
      { status := WriterStatus.SUCCESS
        metadata := [("node_count", PropertyValue.int g.nodes.length),
          ("relationship_count", PropertyValue.int g.relationships.length)] } ∧
    (runWriter noFaults st g).2.store.edges =
      g.relationships.flatMap (relEdgesFor (writtenStore g)) := by
  have hrun := runWriter_ok noFaults st g (by intro i _; rfl)
  refine ⟨relEdgesFor_nil_of_dangling _ _ hdangling, ?_, ?_⟩
  · rw [hrun]
  · rw [hrun]
    show ((allEvents g).foldl applyEvent st).edges = _
    have hfold : (allEvents g).foldl applyEvent st =
        g.relationships.foldl writeRel (writtenStore g) := by
      unfold allEvents writtenStore
      rw [List.foldl_cons, List.foldl_append, List.foldl_map, List.foldl_map]
      rfl
    rw [hfold, (writeRels_spec _ _).2]
    have hedges : (writtenStore g).edges = [] := writeNodes_edges _ _
    rw [hedges]
    rfl

/-! ### Witness inputs and witnesses -/

/-- Two nodes sharing id and label but with different name properties. -/
def witNodeA : Node :=
  { id := "N0", label := "인간",
    properties := some [("name", PropertyValue.str "Tanjiro Kamado")] }

/-- Two nodes sharing id and label but with different name properties. -/
def witNodeB : Node :=
  { id := "N0", label := "인간",
    properties := some [("name", PropertyValue.str "Nezuko Kamado")] }

/-- A one-chunk input for the merge witnesses. -/
def witGraphMerge : GraphResponse :=
  { nodes := [witNodeA, witNodeB], relationships := [] }

/-- Witness for claim C1 at a concrete input. -/
theorem combine_dedup_key_exact_witness :
    witNodeA ∈ (combine_chunk_graphs [witGraphMerge]).nodes ∧
    witNodeB ∈ (combine_chunk_graphs [witGraphMerge]).nodes ∧
    witNodeA ≠ witNodeB :=
  (combine_dedup_key_exact [witGraphMerge] witNodeA witNodeB (by decide)
    (by decide) rfl rfl (by decide)).1

/-- A node for the load witnesses. -/
def witLoadNode : Node :=
  { id := "A", label := "L", properties := some [("name", PropertyValue.str "x")] }

/-- A self-relationship for the load witnesses. -/
def witLoadRel : Relationship :=
  { type := "R", start_node_id := "A", end_node_id := "A", properties := Option.none }

/-- A well-formed load input: one node, one self-relationship. -/
def witGraphLoad : GraphResponse :=
  { nodes := [witLoadNode], relationships := [witLoadRel] }

/-- Witness for claim C2 (amended) at a concrete input. -/
theorem double_load_amended_witness :
    (doubleLoadStore { nodes := [], edges := [] } witGraphLoad).nodes.length =
      witGraphLoad.nodes.length ∧
    (doubleLoadStore { nodes := [], edges := [] } witGraphLoad).edges.length =
      2 * witGraphLoad.relationships.length :=
  double_load_amended { nodes := [], edges := [] } witGraphLoad (by decide)
    (by decide) (by decide)

/-- Witness for claim C3 at a concrete input. -/
theorem writer_strict_operation_order_witness :
    (runWriter noFaults { nodes := [], edges := [] } witGraphLoad).2.trace =
      allEvents witGraphLoad :=
  (writer_strict_operation_order noFaults { nodes := [], edges := [] }
    witGraphLoad).2 (by decide)

/-- The dangling relationship of `witGraphDangling`. -/
def witDanglingRel : Relationship :=
  { type := "R", start_node_id := "A", end_node_id := "Z", properties := Option.none }

/-- A load input with a dangling relationship. -/
def witGraphDangling : GraphResponse :=
  { nodes := [witLoadNode], relationships := [witDanglingRel] }

/-- Witness for claim C4 at a concrete input. -/
theorem dangling_relationship_lossy_witness :
    relEdgesFor (writtenStore witGraphDangling) witDanglingRel = [] ∧
    (runWriter noFaults { nodes := [], edges := [] } witGraphDangling).1 =
      { status := WriterStatus.SUCCESS
        metadata := [("node_count", PropertyValue.int witGraphDangling.nodes.length),
          ("relationship_count",
            PropertyValue.int witGraphDangling.relationships.length)] } ∧
    (runWriter noFaults { nodes := [], edges := [] } witGraphDangling).2.store.edges =
      witGraphDangling.relationships.flatMap
        (relEdgesFor (writtenStore witGraphDangling)) :=
  dangling_relationship_lossy { nodes := [], edges := [] } witGraphDangling
    witDanglingRel (by decide) (by decide)

/-- Witness for claim C5 at a concrete input: the fault hits the node write. -/
theorem load_failure_reported_not_atomic_witness :
    runWriter (failAt 1 "boom") { nodes := [], edges := [] } witGraphLoad =
      ({ status := WriterStatus.FAILURE
         metadata := [("error", PropertyValue.str "boom")] },
       { store := ((allEvents witGraphLoad).take 1).foldl applyEvent
           { nodes := [], edges := [] }
         trace := (allEvents witGraphLoad).take 1
         counter := 1 + 1 }) :=
  load_failure_reported_not_atomic { nodes := [], edges := [] } witGraphLoad 1
    "boom" (by decide)

/-- A node whose name is a canonical name of the lookup table. -/
def witNodeSabito : Node :=
  { id := "N4", label := "인간",
    properties := some [("name", PropertyValue.str "Sabito")] }

/-- Witness for claim C9 at a concrete input. -/
theorem localize_node_exact_witness :
    localize_node witNodeSabito = Except.ok { witNodeSabito with
      properties := some (dictSet [("name", PropertyValue.str "Sabito")] "name"
        (PropertyValue.str "사비토")) } :=
  ((localize_node_exact witNodeSabito [("name", PropertyValue.str "Sabito")]
    rfl).1 "Sabito" "사비토" (by decide) (by decide)).1

/-- A node without a properties mapping. -/
def witBareNode : Node :=
  { id := "N0", label := "인간", properties := Option.none }

/-- A relationship of the bad chunk. -/
def witBadRel : Relationship :=
  { type := "R", start_node_id := "N0", end_node_id := "N0", properties := Option.none }

/-- A chunk whose only node has no properties mapping. -/
def witBadChunk : GraphResponse :=
  { nodes := [witBareNode], relationships := [witBadRel] }

/-- Witness for claim C10 at a concrete input: the bad chunk drops out of the
merged result. -/
theorem chunk_with_propertyless_node_skipped_witness :
    process_data ([("S1E01", witGraphMerge)] ++ ("S1E02", witBadChunk) :: []) =
      process_data ([("S1E01", witGraphMerge)] ++ []) :=
  (chunk_with_propertyless_node_skipped "S1E02" witBadChunk (by decide)).2.2
    [("S1E01", witGraphMerge)] []

end GraphRAG
